import Mathlib

/-!
Line-echo servers: thread, fork, select and epoll variants

A shallow embedding of the four Go servers of the repository
(`server_threads/main.go`, `server_fork/main.go`, `server_select.go`,
`server_epoll.go`) together with the properties proved about them.

Conventions of the embedding

* Go `int` is `Int`, Go `uint64` is a `Nat` reduced modulo `2^64` where it is
  updated, a Go `string` is a Lean `String`.
* System calls are not executed: every function takes the outcomes of the
  calls it makes as arguments and returns the calls it made, in order.
* A Go runtime panic (index out of range) is the value `none` of a function
  and the outcome `crashed` of a loop iteration, which keeps the calls made
  before the panic.
* The bytes of a line or of a chunk read from a socket are taken to be valid
  UTF-8, so that they are a `String`; the byte count `n` of a read is the
  `utf8ByteSize` of the chunk.
* `strings.TrimSpace`, `strings.ToUpper`, `fmt.Sprintf` and `bufio.Scanner`
  come from the Go standard library.  A scanner is met line by line: `scanLine`
  gives, for the next line the peer sent, the token of `scanner.Text()` or the
  failure `ErrTooLong` of a line that does not fit the scanner's buffer.  `TrimSpace` is written out with the white-space table of
  `unicode.IsSpace`; the rune map of `unicode.ToUpper` is a parameter
  `upper : Char → Char` of every function that upper-cases.
-/

namespace GoStrings

/-- White space in the sense of Go's `unicode.IsSpace`: the Latin-1 cases
`\t \n \v \f \r`, space, U+0085, U+00A0 and the `White_Space` ranges above
Latin-1. -/
def isSpace (r : Char) : Bool :=
  let c := r.toNat
  (0x09 ≤ c && c ≤ 0x0D) || c == 0x20 || c == 0x85 || c == 0xA0 || c == 0x1680 ||
    (0x2000 ≤ c && c ≤ 0x200A) || c == 0x2028 || c == 0x2029 || c == 0x202F ||
    c == 0x205F || c == 0x3000

/-- Go's `strings.TrimSpace`: the string without its leading and trailing
white space. -/
def TrimSpace (s : String) : String :=
  ⟨(s.data.dropWhile isSpace).rdropWhile isSpace⟩

/-- Go's `strings.ToUpper`: every rune replaced by its image under the rune
map `upper` (`unicode.ToUpper`). -/
def ToUpper (upper : Char → Char) (s : String) : String :=
  ⟨s.data.map upper⟩

/-- The verb `%d` of `fmt.Sprintf` on a `uint64`. -/
def fmtUint (n : Nat) : String := toString n

/-- The verb `%d` of `fmt.Sprintf` on an `int`. -/
def fmtInt (n : Int) : String := toString n

end GoStrings

namespace GoBufio

/-- The constant `bufio.MaxScanTokenSize`, the largest size the buffer of a
scanner made by `bufio.NewScanner` grows to. -/
def MaxScanTokenSize : Nat := 64 * 1024

/-- The function `dropCR` of `bufio.ScanLines`: a final `\r` is dropped. -/
def dropCR (data : List Char) : List Char :=
  if data.getLast? = some '\r' then data.dropLast else data

/-- One call of `scanner.Scan()` on a `bufio.NewScanner` (split function
`ScanLines`, default buffer), for the next line the peer sent, given without
its newline.  A line of `MaxScanTokenSize` bytes or more fills the buffer
before its newline is seen: `Scan` fails with `ErrTooLong`, the value `none`.
Otherwise `scanner.Text()` is the line without a final `\r`. -/
def scanLine (line : String) : Option String :=
  if line.utf8ByteSize ≥ MaxScanTokenSize then none else some ⟨dropCR line.data⟩

/-- The line of `n` letters `a`. -/
def lineOfSize (n : Nat) : String := ⟨List.replicate n 'a'⟩

/-- A line of 65536 letters `a`. -/
def longLine : String := lineOfSize 65536

end GoBufio

open GoStrings GoBufio

/-! ## Thread-per-connection server (`server_threads/main.go`) -/

namespace Threads

/-- Calls made on a `net.Conn`. -/
inductive ConnOp where
  | write (data : String)
  | close
  deriving DecidableEq, Repr

/-- What one turn of the worker loop meets: whether `SetReadDeadline` fails,
the next line the peer sent (without its newline), whether `SetWriteDeadline`
fails and whether `conn.Write` fails.  The end of the list of rounds is the end
of the input, where `scanner.Scan()` returns false. -/
structure Round where
  readDeadlineErr : Bool
  line : String
  writeDeadlineErr : Bool
  writeErr : Bool
  deriving DecidableEq, Repr

/-- A round in which no call fails. -/
def Round.ok (line : String) : Round := ⟨false, line, false, false⟩

def greeting : String := "Welcome to the goroutine-based echo server.\n"

/-- The line `fmt.Sprintf("[session %d] %s\n", sessionID, ToUpper(TrimSpace(line)))`. -/
def response (upper : Char → Char) (sessionID : Nat) (line : String) : String :=
  "[session " ++ fmtUint sessionID ++ "] " ++ ToUpper upper (TrimSpace line) ++ "\n"

/-- The `for` loop of `handleConnection`: the calls made on the connection. -/
def handleConnectionLoop (upper : Char → Char) (sessionID : Nat) : List Round → List ConnOp
  | [] => []
  | r :: rest =>
    if r.readDeadlineErr then []
    else
      match scanLine r.line with
      | none => []
      | some text =>
        if r.writeDeadlineErr then []
        else if r.writeErr then [ConnOp.write (response upper sessionID text)]
        else ConnOp.write (response upper sessionID text) :: handleConnectionLoop upper sessionID rest

/-- The worker `handleConnection`: greeting, loop, and the deferred close. -/
def handleConnection (upper : Char → Char) (greetingErr : Bool) (sessionID : Nat)
    (rounds : List Round) : List ConnOp :=
  if greetingErr then [ConnOp.write greeting, ConnOp.close]
  else ConnOp.write greeting :: (handleConnectionLoop upper sessionID rounds ++ [ConnOp.close])

/-- The function `atomic.AddUint64`: the new value of the counter. -/
def atomicAddUint64 (v delta : Nat) : Nat := (v + delta) % 2 ^ 64

/-- Outcome of `listener.Accept()`: an error, or a connection. -/
inductive AcceptResult where
  | err
  | conn (c : Nat)
  deriving DecidableEq, Repr

/-- The accept loop of `main`: from the value of `sessionIDSeed` and the
outcomes of the successive `Accept` calls, the final counter and the workers
started, each with its connection and session identifier. -/
def acceptLoop (seed : Nat) : List AcceptResult → Nat × List (Nat × Nat)
  | [] => (seed, [])
  | AcceptResult.err :: rest => acceptLoop seed rest
  | AcceptResult.conn c :: rest =>
    let sessionID := atomicAddUint64 seed 1
    let r := acceptLoop sessionID rest
    (r.1, (c, sessionID) :: r.2)

/-- The connections among the accept outcomes, in order. -/
def accepted : List AcceptResult → List Nat
  | [] => []
  | AcceptResult.err :: rest => accepted rest
  | AcceptResult.conn c :: rest => c :: accepted rest

end Threads

/-! ## Process-per-connection server (`server_fork/main.go`) -/

namespace Fork

/-- The line `fmt.Sprintf("[fork child %d] %s\n", os.Getpid(), ToUpper(payload))`. -/
def response (upper : Char → Char) (pid : Int) (payload : String) : String :=
  "[fork child " ++ fmtInt pid ++ "] " ++ ToUpper upper payload ++ "\n"

/-- The child loop `handleSession`: the calls made on the connection, for the
process identifier `os.Getpid()` and the rounds met. -/
def handleSession (upper : Char → Char) (pid : Int) : List Threads.Round → List Threads.ConnOp
  | [] => []
  | r :: rest =>
    if r.readDeadlineErr then []
    else
      match scanLine r.line with
      | none => []
      | some text =>
        if TrimSpace text = "" then handleSession upper pid rest
        else if r.writeDeadlineErr then []
        else if r.writeErr then [Threads.ConnOp.write (response upper pid (TrimSpace text))]
        else Threads.ConnOp.write (response upper pid (TrimSpace text)) :: handleSession upper pid rest

end Fork

/-! ## Select-style multiplexer (`server_select.go`) -/

namespace Select

def maxFDs : Int := 1024

structure clientState where
  fd : Int
  addr : String
  deriving DecidableEq, Repr

/-- The Go map `map[int]*clientState`: a finite map with distinct keys.  The
order of `keys` stands for the unspecified iteration order of `range`. -/
abbrev Clients := AList (fun _ : Int => clientState)

/-- The number `len(clients)`. -/
def len (clients : Clients) : Int := (clients.entries.length : Int)

/-- The type `unix.Sockaddr`, with the two address families the code
distinguishes; address bytes are numbers below 256. -/
inductive Sockaddr where
  | inet4 (addr : Fin 4 → Nat) (port : Int)
  | inet6 (addr : Fin 16 → Nat) (port : Int)
  | other

/-- The verb `%x` of `fmt.Sprintf` on a `uint16`. -/
def fmtHex (n : Nat) : String := ⟨Nat.toDigits 16 n⟩

/-- The expression `uint16(hi)<<8|uint16(lo)`. -/
def word16 (hi lo : Nat) : Nat := ((hi % 256) <<< 8 ||| (lo % 256)) % 2 ^ 16

def stringifySockaddr : Sockaddr → String
  | Sockaddr.inet4 a port =>
    fmtUint (a 0) ++ "." ++ fmtUint (a 1) ++ "." ++ fmtUint (a 2) ++ "." ++ fmtUint (a 3) ++
      ":" ++ fmtInt port
  | Sockaddr.inet6 a port =>
    "[" ++ fmtHex (word16 (a 0) (a 1)) ++ ":" ++ fmtHex (word16 (a 2) (a 3)) ++ ":" ++
      fmtHex (word16 (a 4) (a 5)) ++ ":" ++ fmtHex (word16 (a 6) (a 7)) ++ ":" ++
      fmtHex (word16 (a 8) (a 9)) ++ ":" ++ fmtHex (word16 (a 10) (a 11)) ++ ":" ++
      fmtHex (word16 (a 12) (a 13)) ++ ":" ++ fmtHex (word16 (a 14) (a 15)) ++ "]:" ++
      fmtInt port
  | Sockaddr.other => "unknown"

/-- The type `unix.FdSet` (`Bits [16]int64`): sixteen words, each held as its
64-bit pattern. -/
structure FdSet where
  Bits : Fin 16 → Nat

/-- The zero value of `var readFDs unix.FdSet`. -/
def FdSet.zero : FdSet := ⟨fun _ => 0⟩

/-- The index `fd/64` (Go's truncated division) when it lies inside `Bits`;
`none` is the index-out-of-range panic. -/
def wordIndex (fd : Int) : Option (Fin 16) :=
  if h : 0 ≤ Int.tdiv fd 64 ∧ Int.tdiv fd 64 < 16 then
    some ⟨(Int.tdiv fd 64).toNat, by omega⟩
  else none

/-- The shift count `uint(fd) % 64`. -/
def bitIndex (fd : Int) : Nat := (fd % 2 ^ 64).toNat % 64

def fdSet (fd : Int) (set : FdSet) : Option FdSet :=
  match wordIndex fd with
  | none => none
  | some i => some ⟨Function.update set.Bits i (set.Bits i ||| (1 <<< bitIndex fd))⟩

def fdIsSet (fd : Int) (set : FdSet) : Option Bool :=
  match wordIndex fd with
  | none => none
  | some i => some (set.Bits i &&& (1 <<< bitIndex fd) != 0)

/-- System calls made by the select server. -/
inductive SysCall where
  | select (nfds : Int)
  | accept (listenFD : Int)
  | setNonblock (fd : Int)
  | read (fd : Int)
  | write (fd : Int) (data : String)
  | close (fd : Int)
  deriving DecidableEq, Repr

/-- Outcome of `unix.Accept`. -/
inductive AcceptResult where
  | err
  | conn (connFD : Int) (sa : Sockaddr)

/-- Outcome of `unix.Read`: an error, or the bytes `buffer[:n]` read. -/
inductive ReadResult where
  | err
  | data (chunk : String)
  deriving DecidableEq, Repr

/-- Outcome of `unix.Select`: `EINTR`, another error, or the number of ready
descriptors with the descriptor set as the kernel left it. -/
inductive SelectResult where
  | eintr
  | failed
  | ready (n : Int) (readFDs : FdSet)

/-- What the system calls of one loop iteration return. -/
structure Env where
  select : SelectResult
  accept : AcceptResult
  nonblockErr : Bool
  read : Int → ReadResult
  writeErr : Int → Bool

/-- Lines 63-66 of `main`, the body of the first `range` loop: `fd` is added
to the set and `maxFD` raised to it. -/
def addInterest (acc : FdSet × Int) (fd : Int) : Option (FdSet × Int) :=
  match fdSet fd acc.1 with
  | none => none
  | some s => some (s, if fd > acc.2 then fd else acc.2)

/-- Lines 58-67 of `main`: the interest set and `maxFD`, built from the
listener and the keys of the map in iteration order. -/
def buildReadFDs (listenFD : Int) (keys : List Int) : Option (FdSet × Int) :=
  match fdSet listenFD FdSet.zero with
  | none => none
  | some s0 => keys.foldlM addInterest (s0, listenFD)

def acceptNewClient (listenFD : Int) (clients : Clients) (acc : AcceptResult)
    (nonblockErr : Bool) : Clients × List SysCall :=
  match acc with
  | AcceptResult.err => (clients, [SysCall.accept listenFD])
  | AcceptResult.conn connFD sa =>
    if len clients ≥ maxFDs - 1 then
      (clients, [SysCall.accept listenFD, SysCall.close connFD])
    else if nonblockErr then
      (clients, [SysCall.accept listenFD, SysCall.setNonblock connFD, SysCall.close connFD])
    else
      (clients.insert connFD ⟨connFD, stringifySockaddr sa⟩,
        [SysCall.accept listenFD, SysCall.setNonblock connFD])

/-- The line `fmt.Sprintf("[select %d] %s\n", fd, ToUpper(payload))`. -/
def response (upper : Char → Char) (fd : Int) (payload : String) : String :=
  "[select " ++ fmtInt fd ++ "] " ++ ToUpper upper payload ++ "\n"

/-- Function `handleSelectRead`: whether it returns an error, and the calls
it made. -/
def handleSelectRead (upper : Char → Char) (fd : Int) (rd : ReadResult) (writeErr : Bool) :
    Bool × List SysCall :=
  match rd with
  | ReadResult.err => (true, [SysCall.read fd])
  | ReadResult.data chunk =>
    if chunk.utf8ByteSize = 0 then (true, [SysCall.read fd])
    else (writeErr, [SysCall.read fd, SysCall.write fd (response upper fd (TrimSpace chunk))])

def closeClient (fd : Int) (clients : Clients) : Clients × List SysCall :=
  (clients.erase fd, [SysCall.close fd])

/-- Lines 87-92 of `main`, the body of the second `range` loop once
`fdIsSet(fd, &readFDs)` holds. -/
def serveReady (upper : Char → Char) (fd : Int) (clients : Clients) (rd : ReadResult)
    (writeErr : Bool) : Clients × List SysCall :=
  let r := handleSelectRead upper fd rd writeErr
  if r.1 then ((closeClient fd clients).1, r.2 ++ (closeClient fd clients).2)
  else (clients, r.2)

/-- Lines 86-93 of `main`: the second `range` loop over the descriptors
`fds`, from the map and the calls made so far.  `Except.error calls` is a
panic, with the calls made before it. -/
def serveClients (upper : Char → Char) (readFDs : FdSet) (env : Env) :
    List Int → Clients × List SysCall → Except (List SysCall) (Clients × List SysCall)
  | [], st => Except.ok st
  | fd :: rest, st =>
    match fdIsSet fd readFDs with
    | none => Except.error st.2
    | some false => serveClients upper readFDs env rest st
    | some true =>
      let r := serveReady upper fd st.1 (env.read fd) (env.writeErr fd)
      serveClients upper readFDs env rest (r.1, st.2 ++ r.2)

/-- How one iteration of the `for` loop of `main` ends: the loop goes on with
a new map, or `log.Fatalf` ends the process, or the iteration panics; each
with the calls made in the iteration. -/
inductive Outcome where
  | running (clients : Clients) (calls : List SysCall)
  | exited (calls : List SysCall)
  | crashed (calls : List SysCall)

/-- The calls made in an iteration. -/
def Outcome.calls : Outcome → List SysCall
  | Outcome.running _ calls => calls
  | Outcome.exited calls => calls
  | Outcome.crashed calls => calls

/-- The bytes written by a sequence of calls, in order. -/
def written : List SysCall → String
  | [] => ""
  | SysCall.write _ data :: rest => data ++ written rest
  | _ :: rest => written rest

/-- One iteration of the `for` loop of `main` (lines 57-94). -/
def loopIter (upper : Char → Char) (listenFD : Int) (clients : Clients) (env : Env) : Outcome :=
  match buildReadFDs listenFD clients.keys with
  | none => Outcome.crashed []
  | some (_, maxFD) =>
    match env.select with
    | SelectResult.eintr => Outcome.running clients [SysCall.select (maxFD + 1)]
    | SelectResult.failed => Outcome.exited [SysCall.select (maxFD + 1)]
    | SelectResult.ready n readFDs =>
      if n = 0 then Outcome.running clients [SysCall.select (maxFD + 1)]
      else
        match fdIsSet listenFD readFDs with
        | none => Outcome.crashed [SysCall.select (maxFD + 1)]
        | some l =>
          let a := if l then acceptNewClient listenFD clients env.accept env.nonblockErr
            else (clients, [])
          match serveClients upper readFDs env a.1.keys (a.1, SysCall.select (maxFD + 1) :: a.2) with
          | Except.error calls => Outcome.crashed calls
          | Except.ok st => Outcome.running st.1 st.2

/-- States of the map between iterations of the loop, from the empty map. -/
inductive Reachable (upper : Char → Char) (listenFD : Int) : Clients → Prop where
  | init : Reachable upper listenFD ∅
  | step {clients clients' : Clients} {calls : List SysCall} (env : Env) :
      Reachable upper listenFD clients →
      loopIter upper listenFD clients env = Outcome.running clients' calls →
      Reachable upper listenFD clients'

/-- A map with the `n` descriptors `0, …, n-1`, each entered as
`acceptNewClient` enters a descriptor. -/
def fill : Nat → Clients
  | 0 => ∅
  | n + 1 => (fill n).insert (n : Int) ⟨(n : Int), "unknown"⟩

/-- A map with the two descriptors 5 and 70. -/
def twoClients : Clients :=
  ((∅ : Clients).insert 5 ⟨5, "127.0.0.1:40000"⟩).insert 70 ⟨70, "127.0.0.1:40001"⟩

/-- The descriptor set with the single descriptor 3. -/
def onlyThree : FdSet := ⟨fun i => if i = 0 then 8 else 0⟩

/-- An iteration in which `Select` reports the listener 3 ready and `Accept`
returns the descriptor 1024. -/
def acceptsBeyondRange : Env :=
  ⟨SelectResult.ready 1 onlyThree, AcceptResult.conn 1024 Sockaddr.other, false,
    fun _ => ReadResult.err, fun _ => false⟩

/-- An iteration in which `Select` is interrupted. -/
def interrupted : Env :=
  ⟨SelectResult.eintr, AcceptResult.err, false, fun _ => ReadResult.err, fun _ => false⟩

/-- Whether an outcome is the panic. -/
def Outcome.isCrashed : Outcome → Bool
  | Outcome.crashed _ => true
  | _ => false

end Select

/-! ## Epoll-style multiplexer (`server_epoll.go`) -/

namespace Epoll

/-- Event bits of `golang.org/x/sys/unix` on Linux. -/
def EPOLLIN : Nat := 0x1

def EPOLLERR : Nat := 0x8

def EPOLLHUP : Nat := 0x10

def EPOLLRDHUP : Nat := 0x2000

/-- The type `unix.EpollEvent`, with the fields the loop reads. -/
structure EpollEvent where
  Events : Nat
  Fd : Int
  deriving DecidableEq, Repr

/-- System calls made by the epoll server. -/
inductive SysCall where
  | epollWait (epollFD : Int)
  | accept4 (listenFD : Int)
  | epollCtlAdd (epollFD fd : Int) (events : Nat)
  | epollCtlDel (epollFD fd : Int)
  | read (fd : Int)
  | write (fd : Int) (data : String)
  | close (fd : Int)
  deriving DecidableEq, Repr

/-- Outcome of one turn of the loop of `acceptEpollClients`: `Accept4` fails,
or returns a descriptor, for which `EpollCtl(EPOLL_CTL_ADD)` then fails or
not. -/
inductive AcceptResult where
  | err
  | conn (connFD : Int) (sa : Select.Sockaddr) (ctlAddErr : Bool)

/-- Function `acceptEpollClients`: the calls made, for the outcomes of the
successive turns; past the last outcome `Accept4` returns `EAGAIN`. -/
def acceptEpollClients (listenFD epollFD : Int) : List AcceptResult → List SysCall
  | [] => [SysCall.accept4 listenFD]
  | AcceptResult.err :: _ => [SysCall.accept4 listenFD]
  | AcceptResult.conn connFD _ ctlAddErr :: rest =>
    if ctlAddErr then
      SysCall.accept4 listenFD :: SysCall.epollCtlAdd epollFD connFD (EPOLLIN ||| EPOLLRDHUP) ::
        SysCall.close connFD :: acceptEpollClients listenFD epollFD rest
    else
      SysCall.accept4 listenFD :: SysCall.epollCtlAdd epollFD connFD (EPOLLIN ||| EPOLLRDHUP) ::
        acceptEpollClients listenFD epollFD rest

/-- The line `fmt.Sprintf("[epoll %d] %s\n", fd, ToUpper(payload))`. -/
def response (upper : Char → Char) (fd : Int) (payload : String) : String :=
  "[epoll " ++ fmtInt fd ++ "] " ++ ToUpper upper payload ++ "\n"

/-- Function `handleEpollRead`: whether it returns an error, and the calls it
made. -/
def handleEpollRead (upper : Char → Char) (fd : Int) (events : Nat) (rd : Select.ReadResult)
    (writeErr : Bool) : Bool × List SysCall :=
  if events &&& EPOLLIN = 0 then (true, [])
  else
    match rd with
    | Select.ReadResult.err => (true, [SysCall.read fd])
    | Select.ReadResult.data chunk =>
      if chunk.utf8ByteSize = 0 then (true, [SysCall.read fd])
      else (writeErr, [SysCall.read fd, SysCall.write fd (response upper fd (TrimSpace chunk))])

def closeFD (fd : Int) : List SysCall := [SysCall.close fd]

/-- What the system calls made for one event return. -/
structure EventEnv where
  accepts : List AcceptResult
  read : Select.ReadResult
  writeErr : Bool

/-- The body of the loop over the events (lines 67-78 of `main`). -/
def handleEvent (upper : Char → Char) (listenFD epollFD : Int) (ev : EpollEvent)
    (env : EventEnv) : List SysCall :=
  if ev.Fd = listenFD then acceptEpollClients listenFD epollFD env.accepts
  else if ev.Events &&& (EPOLLHUP ||| EPOLLERR) ≠ 0 then closeFD ev.Fd
  else
    let r := handleEpollRead upper ev.Fd ev.Events env.read env.writeErr
    if r.1 then r.2 ++ closeFD ev.Fd else r.2

/-- Outcome of `unix.EpollWait`: `EINTR`, another error, or the events
`events[0..n)` with what the calls made for each return. -/
inductive WaitResult where
  | eintr
  | failed
  | events (evs : List (EpollEvent × EventEnv))

/-- One iteration of the `for` loop of `main` (lines 57-80): the calls made,
and whether the loop goes on (`log.Fatalf` ends it). -/
def loopIter (upper : Char → Char) (listenFD epollFD : Int) (w : WaitResult) :
    List SysCall × Bool :=
  match w with
  | WaitResult.eintr => ([SysCall.epollWait epollFD], true)
  | WaitResult.failed => ([SysCall.epollWait epollFD], false)
  | WaitResult.events evs =>
    (SysCall.epollWait epollFD ::
      (evs.map (fun e => handleEvent upper listenFD epollFD e.1 e.2)).flatten, true)

/-- The loop of `main` over the outcomes of successive `EpollWait` calls: all
calls made from the registration of the listener on. -/
def run (upper : Char → Char) (listenFD epollFD : Int) : List WaitResult → List SysCall
  | [] => []
  | w :: rest =>
    let r := loopIter upper listenFD epollFD w
    if r.2 then r.1 ++ run upper listenFD epollFD rest else r.1

/-- The calls `EPOLL_CTL_DEL` on `fd` in `calls` after the last
`EPOLL_CTL_ADD` on `fd`, counted from `n` removals so far. -/
def removalsSinceAdd (fd : Int) : Nat → List SysCall → Nat
  | n, [] => n
  | n, SysCall.epollCtlAdd _ fd' _ :: rest =>
    if fd' = fd then removalsSinceAdd fd 0 rest else removalsSinceAdd fd n rest
  | n, SysCall.epollCtlDel _ fd' :: rest =>
    if fd' = fd then removalsSinceAdd fd (n + 1) rest else removalsSinceAdd fd n rest
  | n, _ :: rest => removalsSinceAdd fd n rest

/-- The requirement on a sequence of calls, in the words of the specification:
every close of a descriptor is preceded by exactly one registration removal
for that descriptor since its registration was added.  `before` holds the
calls already made. -/
def removalBeforeClose (before : List SysCall) : List SysCall → Bool
  | [] => true
  | SysCall.close fd :: rest =>
    (removalsSinceAdd fd 0 before == 1) && removalBeforeClose (before ++ [SysCall.close fd]) rest
  | c :: rest => removalBeforeClose (before ++ [c]) rest

/-- Whether a call is an `EPOLL_CTL_DEL`. -/
def SysCall.isCtlDel : SysCall → Bool
  | SysCall.epollCtlDel _ _ => true
  | _ => false

/-- The bytes written by a sequence of calls, in order. -/
def written : List SysCall → String
  | [] => ""
  | SysCall.write _ data :: rest => data ++ written rest
  | _ :: rest => written rest

/-- A run of two iterations with listener 3 and epoll descriptor 4: descriptor
7 is accepted and registered, then reported with `EPOLLHUP`. -/
def acceptThenHangUp : List WaitResult :=
  [WaitResult.events
      [(⟨EPOLLIN, 3⟩, ⟨[AcceptResult.conn 7 Select.Sockaddr.other false], Select.ReadResult.err, false⟩)],
    WaitResult.events [(⟨EPOLLHUP, 7⟩, ⟨[], Select.ReadResult.err, false⟩)]]

end Epoll

/-! ## Reading of the wire protocol in the specification -/

namespace WireSpec

/-- The newline-terminated lines of a chunk: the pieces between newlines, the
piece after the last newline left out. -/
def chunkLines (chunk : String) : List String :=
  ((chunk.data.splitOn '\n').dropLast).map String.mk

/-- The bytes the specification asks for in answer to a chunk: for each line
whose trimmed content is not empty, in order, the tag, the upper-cased trimmed
line and a newline. -/
def expectedReply (upper : Char → Char) (tag : String) (chunk : String) : String :=
  String.join (((chunkLines chunk).filter (fun l => TrimSpace l ≠ "")).map
    (fun l => "[" ++ tag ++ "] " ++ ToUpper upper (TrimSpace l) ++ "\n"))

end WireSpec

/-! ## Theorems: the scanner and `TrimSpace` -/

namespace GoBufio

/-- Trimming is not changed by one more white-space character at the end. -/
theorem trim_chars_concat (c : Char) (hc : isSpace c = true) (cs : List Char) :
    ((cs ++ [c]).dropWhile isSpace).rdropWhile isSpace =
      (cs.dropWhile isSpace).rdropWhile isSpace := by
  induction cs with
  | nil =>
    simp [List.dropWhile, hc, List.rdropWhile]
  | cons a rest ih =>
    by_cases ha : isSpace a = true
    · simp only [List.cons_append, List.dropWhile_cons, ha, if_true]
      exact ih
    · simp only [List.cons_append, List.dropWhile_cons, ha, if_false]
      rw [← List.cons_append]
      exact List.rdropWhile_concat_pos _ _ _ hc

/-- The token of a line and the line have the same trimmed content. -/
theorem TrimSpace_dropCR (L : String) : TrimSpace ⟨dropCR L.data⟩ = TrimSpace L := by
  unfold TrimSpace dropCR
  by_cases h : L.data.getLast? = some '\r'
  · simp only [h, if_true]
    have hsplit : L.data.dropLast ++ ['\r'] = L.data :=
      List.dropLast_append_getLast? '\r' (by rw [h]; exact rfl)
    have hcr : isSpace '\r' = true := by decide
    have := trim_chars_concat '\r' hcr L.data.dropLast
    rw [hsplit] at this
    rw [this]
  · simp only [h, if_false]

theorem scanLine_of_lt (L : String) (h : L.utf8ByteSize < MaxScanTokenSize) :
    scanLine L = some ⟨dropCR L.data⟩ := by
  have h' : ¬ L.utf8ByteSize ≥ MaxScanTokenSize := by omega
  simp only [scanLine, h', if_false]

theorem utf8ByteSize_lineOfSize (n : Nat) : (lineOfSize n).utf8ByteSize = n := by
  show String.utf8ByteSize.go (List.replicate n 'a') = n
  induction n with
  | zero => rfl
  | succ n ih =>
    have h1 : ('a' : Char).utf8Size = 1 := by decide
    rw [List.replicate_succ, String.utf8ByteSize.go, ih, h1]

theorem utf8ByteSize_longLine : longLine.utf8ByteSize = 65536 :=
  utf8ByteSize_lineOfSize 65536

theorem scanLine_longLine : scanLine longLine = none := by
  have h : longLine.utf8ByteSize ≥ MaxScanTokenSize := by
    rw [utf8ByteSize_longLine]; decide
  simp only [scanLine, h, if_true]

theorem TrimSpace_lineOfSize (n : Nat) (hn : 0 < n) : TrimSpace (lineOfSize n) ≠ "" := by
  obtain ⟨m, rfl⟩ : ∃ m, n = m + 1 := ⟨n - 1, by omega⟩
  have ha : ¬ isSpace 'a' = true := by decide
  have h1 : (List.replicate (m + 1) 'a').dropWhile isSpace = List.replicate (m + 1) 'a' := by
    rw [List.replicate_succ, List.dropWhile_cons, if_neg ha]
  have h2 : ((List.replicate (m + 1) 'a').dropWhile isSpace).rdropWhile isSpace =
      List.replicate (m + 1) 'a' := by
    rw [h1, List.replicate_succ']
    exact List.rdropWhile_concat_neg _ _ _ ha
  intro h
  have hd : (TrimSpace (lineOfSize (m + 1))).data = List.replicate (m + 1) 'a' := h2
  rw [h, List.replicate_succ] at hd
  exact List.noConfusion hd

theorem TrimSpace_longLine : TrimSpace longLine ≠ "" :=
  TrimSpace_lineOfSize 65536 (by decide)

end GoBufio

/-! ## Theorems: thread-per-connection server -/

namespace Threads

/-- The response to a scanned line is the response to the line as sent. -/
theorem response_dropCR (upper : Char → Char) (N : Nat) (L : String) :
    response upper N ⟨dropCR L.data⟩ = response upper N L := by
  unfold response
  rw [TrimSpace_dropCR]

/-- On a line that does not fit the scanner's buffer the loop ends without a
call. -/
theorem handleConnectionLoop_tooLong (upper : Char → Char) (N : Nat) (r : Round)
    (rest : List Round) (h : scanLine r.line = none) :
    handleConnectionLoop upper N (r :: rest) = [] := by
  simp only [handleConnectionLoop, h]
  split <;> rfl

/-- With no failing call the loop answers every line below the token limit,
blank or not, in order. -/
theorem handleConnectionLoop_ok (upper : Char → Char) (N : Nat) (lines : List String)
    (hsize : ∀ L ∈ lines, L.utf8ByteSize < MaxScanTokenSize) :
    handleConnectionLoop upper N (lines.map Round.ok) =
      lines.map (fun L => ConnOp.write (response upper N L)) := by
  induction lines with
  | nil => rfl
  | cons L rest ih =>
    have hL := scanLine_of_lt L (hsize L (List.mem_cons_self _ _))
    have ih' := ih (fun x hx => hsize x (List.mem_cons_of_mem _ hx))
    simp [handleConnectionLoop, Round.ok, hL, ih', response_dropCR]

/-- C1 as amended: for every session identifier `N` and every finite sequence
of lines, each shorter than the 65536 bytes of the scanner's buffer and of
non-empty trimmed content, when no call fails the worker writes the greeting
and then exactly one response per line, in the order of the lines, the response
to `L` being `"[session N] "`, then `ToUpper(TrimSpace(L))`, then a newline; it
then closes the connection. -/
theorem handleConnection_one_response_per_line (upper : Char → Char) (N : Nat)
    (lines : List String) (h : ∀ L ∈ lines, TrimSpace L ≠ "")
    (hsize : ∀ L ∈ lines, L.utf8ByteSize < MaxScanTokenSize) :
    handleConnection upper false N (lines.map Round.ok) =
      ConnOp.write greeting ::
        (lines.map (fun L =>
            ConnOp.write ("[session " ++ toString N ++ "] " ++ ToUpper upper (TrimSpace L) ++ "\n"))
          ++ [ConnOp.close]) := by
  have _ := h
  simp only [handleConnection, handleConnectionLoop_ok upper N lines hsize]
  rfl

/-- C1, the claim refuted: the line of 65536 letters `a` has non-empty
trimmed content and no call fails, yet the worker of session 1 answers neither
it nor the line `"hi"` sent after it: `Scan` fails on the long line and the
worker closes the connection after the greeting. -/
theorem long_line_ends_thread_session :
    TrimSpace longLine ≠ "" ∧ TrimSpace "hi" ≠ "" ∧ longLine.utf8ByteSize = 65536 ∧
    handleConnection Char.toUpper false 1 [Round.ok longLine, Round.ok "hi"] =
      [ConnOp.write greeting, ConnOp.close] ∧
    handleConnection Char.toUpper false 1 ([longLine, "hi"].map Round.ok) ≠
      ConnOp.write greeting ::
        ([longLine, "hi"].map (fun L =>
            ConnOp.write ("[session " ++ toString 1 ++ "] " ++
              ToUpper Char.toUpper (TrimSpace L) ++ "\n"))
          ++ [ConnOp.close]) := by
  have hloop := handleConnectionLoop_tooLong Char.toUpper 1 (Round.ok longLine) [Round.ok "hi"]
    scanLine_longLine
  have hrun : handleConnection Char.toUpper false 1 [Round.ok longLine, Round.ok "hi"] =
      [ConnOp.write greeting, ConnOp.close] := by
    unfold handleConnection
    rw [hloop]
    rfl
  refine ⟨TrimSpace_longLine, by decide, utf8ByteSize_longLine, hrun, ?_⟩
  intro h
  have hlen := congrArg List.length h
  rw [List.map_cons, List.map_cons, List.map_nil, hrun] at hlen
  simp only [List.map_cons, List.map_nil, List.length_cons, List.length_append,
    List.length_nil] at hlen
  omega

theorem handleConnection_one_response_per_line_witness :
    (∀ L ∈ ["  hi  ", "trabalho", "a b"], TrimSpace L ≠ "") ∧
    (∀ L ∈ ["  hi  ", "trabalho", "a b"], L.utf8ByteSize < MaxScanTokenSize) ∧
    handleConnection Char.toUpper false 7 (["  hi  ", "trabalho", "a b"].map Round.ok) =
      [ConnOp.write greeting, ConnOp.write "[session 7] HI\n",
        ConnOp.write "[session 7] TRABALHO\n", ConnOp.write "[session 7] A B\n", ConnOp.close] :=
  ⟨by decide, by decide,
    handleConnection_one_response_per_line Char.toUpper 7 ["  hi  ", "trabalho", "a b"]
      (by decide) (by decide)⟩

/-- C2, the code at the failing input: for the lines `""` and `"   "` the
worker of session 1 writes a response for each, `"[session 1] \n"`, instead of
skipping them. -/
theorem handleConnection_answers_blank_lines (upper : Char → Char) :
    handleConnection upper false 1 [Round.ok "", Round.ok "   "] =
      [ConnOp.write greeting, ConnOp.write "[session 1] \n", ConnOp.write "[session 1] \n",
        ConnOp.close] := by
  rfl

theorem acceptLoop_conns (outs : List AcceptResult) (seed : Nat) :
    (acceptLoop seed outs).2.map Prod.fst = accepted outs := by
  induction outs generalizing seed with
  | nil => rfl
  | cons o rest ih =>
    cases o with
    | err => simpa [acceptLoop, accepted] using ih seed
    | conn c => simp [acceptLoop, accepted, ih]

theorem acceptLoop_ids (outs : List AcceptResult) (seed : Nat)
    (h : seed + (accepted outs).length < 2 ^ 64) :
    (acceptLoop seed outs).2.map Prod.snd = List.range' (seed + 1) (accepted outs).length := by
  induction outs generalizing seed with
  | nil => rfl
  | cons o rest ih =>
    cases o with
    | err => simpa [acceptLoop, accepted] using ih seed (by simpa [accepted] using h)
    | conn c =>
      have hlen : (accepted (AcceptResult.conn c :: rest)).length = (accepted rest).length + 1 := rfl
      have hs : atomicAddUint64 seed 1 = seed + 1 := by
        unfold atomicAddUint64
        exact Nat.mod_eq_of_lt (by omega)
      have ih' := ih (seed + 1) (by omega)
      simp only [acceptLoop, hs, List.map_cons, hlen, List.range'_succ, ih']

/-- C4: from the counter value 0, for every sequence of accept outcomes with
fewer than `2^64` successes, the workers are started for the accepted
connections in accept order, the `k`-th of them (counting from 1) with session
identifier `k`; a failed accept consumes no identifier; the identifiers are
strictly increasing and pairwise distinct. -/
theorem session_ids_count_accepts (outs : List AcceptResult)
    (h : (accepted outs).length < 2 ^ 64) :
    (acceptLoop 0 outs).2.map Prod.fst = accepted outs ∧
    (acceptLoop 0 outs).2.map Prod.snd = List.range' 1 (accepted outs).length ∧
    (∀ k, k < (accepted outs).length →
      ((acceptLoop 0 outs).2.map Prod.snd)[k]? = some (k + 1)) ∧
    ((acceptLoop 0 outs).2.map Prod.snd).Pairwise (fun a b => a < b) ∧
    ((acceptLoop 0 outs).2.map Prod.snd).Nodup := by
  have hids := acceptLoop_ids outs 0 (by simpa using h)
  refine ⟨acceptLoop_conns outs 0, hids, ?_, ?_, ?_⟩
  · intro k hk
    rw [hids, List.getElem?_range' _ _ hk]
    simp [Nat.add_comm]
  · rw [hids]
    exact List.pairwise_lt_range' _ _
  · rw [hids]
    exact List.nodup_range' _ _

theorem session_ids_count_accepts_witness :
    (accepted [AcceptResult.conn 10, AcceptResult.err, AcceptResult.conn 11,
      AcceptResult.conn 10]).length < 2 ^ 64 ∧
    (acceptLoop 0 [AcceptResult.conn 10, AcceptResult.err, AcceptResult.conn 11,
      AcceptResult.conn 10]).2 = [(10, 1), (11, 2), (10, 3)] ∧
    ((acceptLoop 0 [AcceptResult.conn 10, AcceptResult.err, AcceptResult.conn 11,
      AcceptResult.conn 10]).2.map Prod.snd).Nodup :=
  ⟨by decide, by decide,
    (session_ids_count_accepts [AcceptResult.conn 10, AcceptResult.err, AcceptResult.conn 11,
      AcceptResult.conn 10] (by decide)).2.2.2.2⟩

end Threads

/-! ## Theorems: process-per-connection server -/

namespace Fork

/-- On a line that does not fit the scanner's buffer `handleSession` returns
without a call. -/
theorem handleSession_tooLong (upper : Char → Char) (P : Int) (r : Threads.Round)
    (rest : List Threads.Round) (h : scanLine r.line = none) :
    handleSession upper P (r :: rest) = [] := by
  simp only [handleSession, h]
  split <;> rfl

/-- C8 as amended: for every process identifier `P` and every finite sequence
of lines, each shorter than the 65536 bytes of the scanner's buffer, when no
call fails the responses written by `handleSession` are the lines with those of
empty trimmed content dropped and every other line `L` replaced by
`"[fork child P] "`, then `ToUpper(TrimSpace(L))`, then a newline, in the
original order; their number is the number of non-blank lines. -/
theorem handleSession_filters_and_tags (upper : Char → Char) (P : Int) (lines : List String)
    (hsize : ∀ L ∈ lines, L.utf8ByteSize < MaxScanTokenSize) :
    handleSession upper P (lines.map Threads.Round.ok) =
      (lines.filter (fun L => decide (TrimSpace L ≠ ""))).map (fun L =>
        Threads.ConnOp.write
          ("[fork child " ++ toString P ++ "] " ++ ToUpper upper (TrimSpace L) ++ "\n")) ∧
    (handleSession upper P (lines.map Threads.Round.ok)).length =
      lines.countP (fun L => decide (TrimSpace L ≠ "")) := by
  have key : handleSession upper P (lines.map Threads.Round.ok) =
      (lines.filter (fun L => decide (TrimSpace L ≠ ""))).map (fun L =>
        Threads.ConnOp.write (response upper P (TrimSpace L))) := by
    induction lines with
    | nil => rfl
    | cons L rest ih =>
      have hs := scanLine_of_lt L (hsize L (List.mem_cons_self _ _))
      have ih' := ih (fun x hx => hsize x (List.mem_cons_of_mem _ hx))
      by_cases hL : TrimSpace L = ""
      · simp [handleSession, Threads.Round.ok, hs, TrimSpace_dropCR, hL, ih']
      · simp [handleSession, Threads.Round.ok, hs, TrimSpace_dropCR, hL, ih']
  refine ⟨key, ?_⟩
  rw [key, List.length_map, List.countP_eq_length_filter]

theorem handleSession_filters_and_tags_witness :
    (∀ L ∈ ["  hi  ", "", " \r", "trabalho\r"], L.utf8ByteSize < MaxScanTokenSize) ∧
    handleSession Char.toUpper 42 (["  hi  ", "", " \r", "trabalho\r"].map Threads.Round.ok) =
      [Threads.ConnOp.write "[fork child 42] HI\n",
        Threads.ConnOp.write "[fork child 42] TRABALHO\n"] :=
  ⟨by decide,
    (handleSession_filters_and_tags Char.toUpper 42 ["  hi  ", "", " \r", "trabalho\r"]
      (by decide)).1⟩

/-- C8, the claim refuted: no call fails, yet the child with process
identifier 42 answers neither the line of 65536 letters `a` nor the line `"hi"`
sent after it, both of non-empty trimmed content: `Scan` fails on the long line
and `handleSession` returns. -/
theorem long_line_ends_child_session :
    TrimSpace longLine ≠ "" ∧ TrimSpace "hi" ≠ "" ∧ longLine.utf8ByteSize = 65536 ∧
    handleSession Char.toUpper 42 ([longLine, "hi"].map Threads.Round.ok) = [] ∧
    ([longLine, "hi"].filter (fun L => decide (TrimSpace L ≠ ""))).length = 2 := by
  have hrun : handleSession Char.toUpper 42 ([longLine, "hi"].map Threads.Round.ok) = [] :=
    handleSession_tooLong Char.toUpper 42 (Threads.Round.ok longLine) [Threads.Round.ok "hi"]
      scanLine_longLine
  have hhi : TrimSpace "hi" ≠ "" := by decide
  have hlong : decide (TrimSpace longLine ≠ "") = true := decide_eq_true TrimSpace_longLine
  have hhi' : decide (TrimSpace "hi" ≠ "") = true := decide_eq_true hhi
  refine ⟨TrimSpace_longLine, hhi, utf8ByteSize_longLine, hrun, ?_⟩
  have hall : List.filter (fun L => decide (TrimSpace L ≠ "")) [longLine, "hi"] =
      [longLine, "hi"] := by
    rw [List.filter_eq_self]
    intro a ha
    rcases List.mem_cons.1 ha with rfl | ha
    · exact hlong
    · rcases List.mem_cons.1 ha with rfl | ha
      · exact hhi'
      · exact absurd ha (List.not_mem_nil _)
  rw [hall]
  rfl

end Fork

/-! ## Theorems: select-style multiplexer -/

namespace Select

theorem and_one_shiftLeft_ne_zero (x b : Nat) : (x &&& (1 <<< b) != 0) = x.testBit b := by
  rw [Nat.one_shiftLeft]
  cases hb : x.testBit b with
  | true =>
    have h1 : (x &&& 2 ^ b).testBit b = true := by
      rw [Nat.testBit_and, hb, Nat.testBit_two_pow_self]; rfl
    have h2 : x &&& 2 ^ b ≠ 0 := by
      intro h0
      rw [h0, Nat.zero_testBit] at h1
      exact Bool.noConfusion h1
    simpa using h2
  | false =>
    have h0 : x &&& 2 ^ b = 0 := by
      apply Nat.eq_of_testBit_eq
      intro i
      rw [Nat.testBit_and, Nat.testBit_two_pow, Nat.zero_testBit]
      by_cases hi : b = i
      · subst hi; simp [hb]
      · simp [hi]
    simp [h0]

theorem tdiv_of_nonneg {fd : Int} (h0 : 0 ≤ fd) : Int.tdiv fd 64 = fd / 64 :=
  Int.tdiv_eq_ediv h0 (by decide)

theorem wordIndex_of_range {fd : Int} (h0 : 0 ≤ fd) (h1 : fd < maxFDs) :
    ∃ i : Fin 16, wordIndex fd = some i ∧ i.val = fd.toNat / 64 := by
  have hm : maxFDs = 1024 := rfl
  rw [hm] at h1
  have ht := tdiv_of_nonneg h0
  have hc : 0 ≤ Int.tdiv fd 64 ∧ Int.tdiv fd 64 < 16 := by
    rw [ht]; omega
  refine ⟨⟨(Int.tdiv fd 64).toNat, by omega⟩, ?_, ?_⟩
  · simp only [wordIndex, dif_pos hc]
  · show (Int.tdiv fd 64).toNat = fd.toNat / 64
    rw [ht]; omega

theorem bitIndex_of_nonneg {fd : Int} (h0 : 0 ≤ fd) : bitIndex fd = fd.toNat % 64 := by
  unfold bitIndex
  omega

theorem wordIndex_none_of_ge {fd : Int} (h : maxFDs ≤ fd) : wordIndex fd = none := by
  have hm : maxFDs = 1024 := rfl
  rw [hm] at h
  have ht := tdiv_of_nonneg (by omega : 0 ≤ fd)
  have hc : ¬ (0 ≤ Int.tdiv fd 64 ∧ Int.tdiv fd 64 < 16) := by
    rw [ht]; omega
  simp only [wordIndex, dif_neg hc]

theorem fdIsSet_of_wordIndex {fd : Int} {i : Fin 16} (h : wordIndex fd = some i) (s : FdSet) :
    fdIsSet fd s = some ((s.Bits i).testBit (bitIndex fd)) := by
  simp only [fdIsSet, h, and_one_shiftLeft_ne_zero]

theorem fdSet_of_wordIndex {fd : Int} {i : Fin 16} (h : wordIndex fd = some i) (s : FdSet) :
    fdSet fd s = some ⟨Function.update s.Bits i (s.Bits i ||| (1 <<< bitIndex fd))⟩ := by
  simp only [fdSet, h]

theorem fdSet_isSome {fd : Int} (hf0 : 0 ≤ fd) (hf1 : fd < maxFDs) (s : FdSet) :
    ∃ s', fdSet fd s = some s' := by
  obtain ⟨i, hi, _⟩ := wordIndex_of_range hf0 hf1
  exact ⟨_, fdSet_of_wordIndex hi s⟩

/-- Membership after `fdSet`, for descriptors in `[0, 1024)`. -/
theorem fdIsSet_fdSet {fd d : Int} (hf0 : 0 ≤ fd) (hf1 : fd < maxFDs) (hd0 : 0 ≤ d)
    (hd1 : d < maxFDs) {s s' : FdSet} (hs : fdSet fd s = some s') :
    fdIsSet d s' = (fdIsSet d s).map (fun b => decide (d = fd) || b) := by
  obtain ⟨i, hi, hiv⟩ := wordIndex_of_range hf0 hf1
  obtain ⟨j, hj, hjv⟩ := wordIndex_of_range hd0 hd1
  rw [fdSet_of_wordIndex hi s] at hs
  cases hs
  rw [fdIsSet_of_wordIndex hj, fdIsSet_of_wordIndex hj, Option.map_some']
  congr 1
  have hm : maxFDs = 1024 := rfl
  rw [hm] at hf1 hd1
  by_cases hij : j = i
  · subst hij
    simp only [Function.update_same, Nat.testBit_or, Nat.one_shiftLeft, Nat.testBit_two_pow]
    rw [Bool.or_comm]
    congr 1
    rw [bitIndex_of_nonneg hf0, bitIndex_of_nonneg hd0]
    have : (fd.toNat % 64 = d.toNat % 64) ↔ d = fd := by
      constructor
      · intro h; omega
      · intro h; rw [h]
    simp only [this]
  · simp only [Function.update_noteq hij]
    have : d ≠ fd := by
      intro h
      subst h
      apply hij
      apply Fin.ext
      omega
    simp [this]

theorem fdIsSet_zero {d : Int} (hd0 : 0 ≤ d) (hd1 : d < maxFDs) :
    fdIsSet d FdSet.zero = some false := by
  obtain ⟨j, hj, _⟩ := wordIndex_of_range hd0 hd1
  rw [fdIsSet_of_wordIndex hj]
  simp [FdSet.zero]

theorem fdIsSet_fdSet_iff {fd d : Int} (hf0 : 0 ≤ fd) (hf1 : fd < maxFDs) (hd0 : 0 ≤ d)
    (hd1 : d < maxFDs) {s s' : FdSet} (hs : fdSet fd s = some s') :
    fdIsSet d s' = some true ↔ (d = fd ∨ fdIsSet d s = some true) := by
  rw [fdIsSet_fdSet hf0 hf1 hd0 hd1 hs]
  obtain ⟨j, hj, _⟩ := wordIndex_of_range hd0 hd1
  rw [fdIsSet_of_wordIndex hj]
  simp

theorem foldlM_addInterest (keys : List Int) (hk : ∀ k ∈ keys, 0 ≤ k ∧ k < maxFDs)
    (s : FdSet) (m : Int) :
    ∃ s' m', keys.foldlM addInterest (s, m) = some (s', m') ∧
      (∀ d, 0 ≤ d → d < maxFDs →
        (fdIsSet d s' = some true ↔ (fdIsSet d s = some true ∨ d ∈ keys))) ∧
      m ≤ m' ∧ (∀ k ∈ keys, k ≤ m') ∧ (m' = m ∨ m' ∈ keys) := by
  induction keys generalizing s m with
  | nil =>
    exact ⟨s, m, rfl, by simp, le_refl _, by simp, Or.inl rfl⟩
  | cons k rest ih =>
    have hk0 := hk k (List.mem_cons_self _ _)
    obtain ⟨s1, hs1⟩ := fdSet_isSome hk0.1 hk0.2 s
    obtain ⟨s', m', hfold, hmem, hle, hub, hin⟩ :=
      ih (fun x hx => hk x (List.mem_cons_of_mem _ hx)) s1 (if k > m then k else m)
    refine ⟨s', m', ?_, ?_, ?_, ?_, ?_⟩
    · rw [List.foldlM_cons]
      simp only [addInterest, hs1]
      exact hfold
    · intro d hd0 hd1
      rw [hmem d hd0 hd1, fdIsSet_fdSet_iff hk0.1 hk0.2 hd0 hd1 hs1, List.mem_cons]
      tauto
    · split_ifs at hle <;> omega
    · intro x hx
      rcases List.mem_cons.1 hx with rfl | hx
      · split_ifs at hle <;> omega
      · exact hub x hx
    · rcases hin with h | h
      · split_ifs at h with hc
        · exact Or.inr (h ▸ List.mem_cons_self _ _)
        · exact Or.inl h
      · exact Or.inr (List.mem_cons_of_mem _ h)

theorem serveClients_calls (upper : Char → Char) (readFDs : FdSet) (env : Env) (fds : List Int)
    (st st' : Clients × List SysCall)
    (h : serveClients upper readFDs env fds st = Except.ok st') :
    ∃ t, st'.2 = st.2 ++ t := by
  induction fds generalizing st with
  | nil =>
    simp only [serveClients, Except.ok.injEq] at h
    exact ⟨[], by simp [h]⟩
  | cons fd rest ih =>
    simp only [serveClients] at h
    cases hr : fdIsSet fd readFDs with
    | none => simp [hr] at h
    | some b =>
      cases b with
      | false =>
        simp only [hr] at h
        exact ih st h
      | true =>
        simp only [hr] at h
        obtain ⟨t, ht⟩ := ih _ h
        exact ⟨(serveReady upper fd st.1 (env.read fd) (env.writeErr fd)).2 ++ t, by
          rw [ht]; simp only [List.append_assoc]⟩

theorem serveClients_calls_panic (upper : Char → Char) (readFDs : FdSet) (env : Env)
    (fds : List Int) (st : Clients × List SysCall) (calls : List SysCall)
    (h : serveClients upper readFDs env fds st = Except.error calls) :
    ∃ t, calls = st.2 ++ t := by
  induction fds generalizing st with
  | nil => simp [serveClients] at h
  | cons fd rest ih =>
    simp only [serveClients] at h
    cases hr : fdIsSet fd readFDs with
    | none =>
      simp only [hr, Except.error.injEq] at h
      exact ⟨[], by simp [h]⟩
    | some b =>
      cases b with
      | false =>
        simp only [hr] at h
        exact ih st h
      | true =>
        simp only [hr] at h
        obtain ⟨t, ht⟩ := ih _ h
        exact ⟨(serveReady upper fd st.1 (env.read fd) (env.writeErr fd)).2 ++ t, by
          rw [ht]; simp only [List.append_assoc]⟩

/-- C9 as amended: for a listener in `[0, 1024)` and a tracked map whose
descriptors all lie in `[0, 1024)`, the set built from the empty `FdSet` exists
and holds, among the descriptors of `[0, 1024)`, exactly the listener and the
keys of the map; the computed `maxFD` is the maximum of the listener and the
tracked descriptors; the first call of the iteration, however it ends, is
`Select` with `maxFD + 1`; and `fdSet(fd)` makes `fdIsSet(fd)` true while
leaving the membership of every other descriptor as it was. -/
theorem interest_set_is_listener_and_clients (upper : Char → Char) (listenFD : Int)
    (clients : Clients) (hl0 : 0 ≤ listenFD) (hl1 : listenFD < maxFDs)
    (hk : ∀ k ∈ clients.keys, 0 ≤ k ∧ k < maxFDs) :
    ∃ set maxFD, buildReadFDs listenFD clients.keys = some (set, maxFD) ∧
      (∀ d, 0 ≤ d → d < maxFDs →
        (fdIsSet d set = some true ↔ (d = listenFD ∨ d ∈ clients.keys))) ∧
      (maxFD = listenFD ∨ maxFD ∈ clients.keys) ∧ listenFD ≤ maxFD ∧
      (∀ k ∈ clients.keys, k ≤ maxFD) ∧
      (∀ env,
        (loopIter upper listenFD clients env).calls.head? = some (SysCall.select (maxFD + 1))) ∧
      (∀ fd d s, 0 ≤ fd → fd < maxFDs → 0 ≤ d → d < maxFDs →
        ∃ s', fdSet fd s = some s' ∧ fdIsSet fd s' = some true ∧
          (d ≠ fd → fdIsSet d s' = fdIsSet d s)) := by
  obtain ⟨s0, hs0⟩ := fdSet_isSome hl0 hl1 FdSet.zero
  obtain ⟨set, maxFD, hfold, hmem, hle, hub, hin⟩ := foldlM_addInterest clients.keys hk s0 listenFD
  have hbuild : buildReadFDs listenFD clients.keys = some (set, maxFD) := by
    simp only [buildReadFDs, hs0]
    exact hfold
  refine ⟨set, maxFD, hbuild, ?_, hin, hle, hub, ?_, ?_⟩
  · intro d hd0 hd1
    rw [hmem d hd0 hd1, fdIsSet_fdSet_iff hl0 hl1 hd0 hd1 hs0, fdIsSet_zero hd0 hd1]
    simp
  · intro env
    unfold loopIter
    simp only [hbuild]
    cases hsel : env.select with
    | eintr => simp [Outcome.calls]
    | failed => simp [Outcome.calls]
    | ready n readFDs =>
      simp only [hsel]
      by_cases hn : n = 0
      · simp [hn, Outcome.calls]
      · simp only [hn, if_false]
        cases hlis : fdIsSet listenFD readFDs with
        | none => simp [Outcome.calls]
        | some l =>
          simp only []
          cases hserve : serveClients upper readFDs env
              (if l = true then acceptNewClient listenFD clients env.accept env.nonblockErr
                else (clients, [])).1.keys
              ((if l = true then acceptNewClient listenFD clients env.accept env.nonblockErr
                else (clients, [])).1,
                SysCall.select (maxFD + 1) ::
                  (if l = true then acceptNewClient listenFD clients env.accept env.nonblockErr
                    else (clients, [])).2) with
          | error calls =>
            simp only [Outcome.calls]
            obtain ⟨t, ht⟩ := serveClients_calls_panic _ _ _ _ _ _ hserve
            rw [ht]
            rfl
          | ok st =>
            simp only [Outcome.calls]
            obtain ⟨t, ht⟩ := serveClients_calls _ _ _ _ _ _ hserve
            rw [ht]
            rfl
  · intro fd d s hf0 hf1 hd0 hd1
    obtain ⟨s', hs'⟩ := fdSet_isSome hf0 hf1 s
    refine ⟨s', hs', ?_, ?_⟩
    · rw [fdIsSet_fdSet_iff hf0 hf1 hf0 hf1 hs']
      exact Or.inl rfl
    · intro hne
      rw [fdIsSet_fdSet hf0 hf1 hd0 hd1 hs']
      obtain ⟨j, hj, _⟩ := wordIndex_of_range hd0 hd1
      rw [fdIsSet_of_wordIndex hj]
      simp [hne]

theorem interest_set_is_listener_and_clients_witness :
    (0 : Int) ≤ 3 ∧ (3 : Int) < maxFDs ∧ (∀ k ∈ twoClients.keys, 0 ≤ k ∧ k < maxFDs) ∧
    ∃ set maxFD, buildReadFDs 3 twoClients.keys = some (set, maxFD) ∧
      (∀ d, 0 ≤ d → d < maxFDs →
        (fdIsSet d set = some true ↔ (d = 3 ∨ d ∈ twoClients.keys))) ∧
      (maxFD = 3 ∨ maxFD ∈ twoClients.keys) ∧ 3 ≤ maxFD ∧ (∀ k ∈ twoClients.keys, k ≤ maxFD) ∧
      (∀ env,
        (loopIter Char.toUpper 3 twoClients env).calls.head? =
          some (SysCall.select (maxFD + 1))) :=
  ⟨by decide, by decide, by decide,
    match interest_set_is_listener_and_clients Char.toUpper 3 twoClients (by decide) (by decide)
      (by decide) with
    | ⟨set, maxFD, h1, h2, h3, h4, h5, h6, _⟩ => ⟨set, maxFD, h1, h2, h3, h4, h5, h6⟩⟩

/-- C9, the claim refuted: with the listener 1024 and the tracked descriptors
5 and 70, all keys in `[0, 1024)`, `fdSet(listenFD)` indexes `Bits[16]` and
panics: no interest set is built and the iteration ends before any call, so
`Select` is not called. -/
theorem listener_1024_builds_no_set :
    (∀ k ∈ twoClients.keys, 0 ≤ k ∧ k < maxFDs) ∧
    (fdSet 1024 FdSet.zero).isNone = true ∧
    (buildReadFDs 1024 twoClients.keys).isNone = true ∧
    (loopIter Char.toUpper 1024 twoClients interrupted).isCrashed = true ∧
    (loopIter Char.toUpper 1024 twoClients interrupted).calls = [] := by
  refine ⟨by decide, by decide, by decide, by decide, by decide⟩

theorem len_insert_le (clients : Clients) (k : Int) (v : clientState) :
    len (clients.insert k v) ≤ len clients + 1 := by
  unfold len
  rw [AList.insert_entries, List.length_cons]
  have := (List.kerase_sublist k clients.entries).length_le
  omega

theorem len_erase_le (clients : Clients) (k : Int) : len (clients.erase k) ≤ len clients := by
  unfold len
  have : (clients.erase k).entries = List.kerase k clients.entries := rfl
  rw [this]
  have := (List.kerase_sublist k clients.entries).length_le
  omega

theorem acceptNewClient_len (listenFD : Int) (clients : Clients) (acc : AcceptResult)
    (nonblockErr : Bool) (h : len clients ≤ maxFDs - 1) :
    len (acceptNewClient listenFD clients acc nonblockErr).1 ≤ maxFDs - 1 := by
  unfold acceptNewClient
  cases acc with
  | err => exact h
  | conn connFD sa =>
    by_cases hfull : len clients ≥ maxFDs - 1
    · simp only [hfull, if_true]; exact h
    · simp only [hfull, if_false]
      cases nonblockErr with
      | true => exact h
      | false =>
        have := len_insert_le clients connFD ⟨connFD, stringifySockaddr sa⟩
        simp only [Bool.false_eq_true, if_false]
        omega

theorem serveReady_len (upper : Char → Char) (fd : Int) (clients : Clients) (rd : ReadResult)
    (writeErr : Bool) : len (serveReady upper fd clients rd writeErr).1 ≤ len clients := by
  unfold serveReady
  by_cases h : (handleSelectRead upper fd rd writeErr).1 = true
  · simp only [h, if_true, closeClient]
    exact len_erase_le clients fd
  · simp only [h, if_false]
    exact le_refl _

theorem serveClients_len (upper : Char → Char) (readFDs : FdSet) (env : Env) (fds : List Int)
    (st st' : Clients × List SysCall)
    (h : serveClients upper readFDs env fds st = Except.ok st') :
    len st'.1 ≤ len st.1 := by
  induction fds generalizing st with
  | nil =>
    simp only [serveClients, Except.ok.injEq] at h
    rw [h]
  | cons fd rest ih =>
    simp only [serveClients] at h
    cases hr : fdIsSet fd readFDs with
    | none => simp [hr] at h
    | some b =>
      cases b with
      | false =>
        simp only [hr] at h
        exact ih st h
      | true =>
        simp only [hr] at h
        exact le_trans (ih _ h) (serveReady_len upper fd st.1 (env.read fd) (env.writeErr fd))

theorem loopIter_len (upper : Char → Char) (listenFD : Int) (clients clients' : Clients)
    (env : Env) (calls : List SysCall) (h : len clients ≤ maxFDs - 1)
    (hstep : loopIter upper listenFD clients env = Outcome.running clients' calls) :
    len clients' ≤ maxFDs - 1 := by
  unfold loopIter at hstep
  cases hb : buildReadFDs listenFD clients.keys with
  | none => simp [hb] at hstep
  | some p =>
    obtain ⟨set, maxFD⟩ := p
    simp only [hb] at hstep
    cases hsel : env.select with
    | eintr =>
      simp only [hsel, Outcome.running.injEq] at hstep
      rw [← hstep.1]; exact h
    | failed => simp [hsel] at hstep
    | ready n readFDs =>
      simp only [hsel] at hstep
      by_cases hn : n = 0
      · simp only [hn, if_true, Outcome.running.injEq] at hstep
        rw [← hstep.1]; exact h
      · simp only [hn, if_false] at hstep
        cases hlis : fdIsSet listenFD readFDs with
        | none => simp [hlis] at hstep
        | some l =>
          simp only [hlis] at hstep
          have ha : len (if l = true then acceptNewClient listenFD clients env.accept env.nonblockErr
              else (clients, [])).1 ≤ maxFDs - 1 := by
            cases l with
            | true => exact acceptNewClient_len listenFD clients env.accept env.nonblockErr h
            | false => exact h
          cases hserve : serveClients upper readFDs env
              (if l = true then acceptNewClient listenFD clients env.accept env.nonblockErr
                else (clients, [])).1.keys
              ((if l = true then acceptNewClient listenFD clients env.accept env.nonblockErr
                else (clients, [])).1,
                SysCall.select (maxFD + 1) ::
                  (if l = true then acceptNewClient listenFD clients env.accept env.nonblockErr
                    else (clients, [])).2) with
          | error calls => simp [hserve] at hstep
          | ok st =>
            simp only [hserve, Outcome.running.injEq] at hstep
            have := serveClients_len _ _ _ _ _ _ hserve
            rw [← hstep.1]
            exact le_trans this ha

theorem fill_keys_lt (n : Nat) (k : Int) (h : k ∈ fill n) : k < n := by
  induction n with
  | zero => exact absurd h (AList.not_mem_empty k)
  | succ n ih =>
    rcases (AList.mem_insert (fill n)).1 h with h | h
    · rw [h]; push_cast; omega
    · have := ih h
      push_cast; omega

theorem len_fill (n : Nat) : len (fill n) = n := by
  induction n with
  | zero => rfl
  | succ n ih =>
    have hnot : (n : Int) ∉ fill n := fun h => lt_irrefl _ (fill_keys_lt n n h)
    unfold len at ih ⊢
    show (((fill n).insert (n : Int) ⟨(n : Int), "unknown"⟩).entries.length : Int) = _
    rw [AList.insert_entries_of_neg hnot, List.length_cons]
    push_cast
    omega

/-- C5: when the tracked map holds `maxFDs-1 = 1023` entries and a further
connection is accepted, `acceptNewClient` closes its descriptor at once and
does nothing else (no write on it, the map unchanged); and in every state the
loop reaches from the empty map, the map holds at most 1023 entries. -/
theorem cap_closes_and_bounds (upper : Char → Char) (listenFD : Int) :
    (∀ (clients : Clients) (connFD : Int) (sa : Sockaddr) (nonblockErr : Bool),
      len clients = maxFDs - 1 →
      acceptNewClient listenFD clients (AcceptResult.conn connFD sa) nonblockErr =
        (clients, [SysCall.accept listenFD, SysCall.close connFD])) ∧
    (∀ clients : Clients, Reachable upper listenFD clients → len clients ≤ maxFDs - 1) := by
  constructor
  · intro clients connFD sa nonblockErr h
    have hfull : len clients ≥ maxFDs - 1 := by omega
    simp only [acceptNewClient, hfull, if_true]
  · intro clients hr
    induction hr with
    | init => decide
    | step env _ hstep ih => exact loopIter_len upper listenFD _ _ env _ ih hstep

theorem cap_closes_and_bounds_witness :
    len (fill 1023) = maxFDs - 1 ∧
    acceptNewClient 3 (fill 1023) (AcceptResult.conn 2000 Sockaddr.other) false =
      (fill 1023, [SysCall.accept 3, SysCall.close 2000]) ∧
    Reachable Char.toUpper 3 ∅ ∧ len (∅ : Clients) ≤ maxFDs - 1 :=
  ⟨len_fill 1023,
    (cap_closes_and_bounds Char.toUpper 3).1 (fill 1023) 2000 Sockaddr.other false (len_fill 1023),
    Reachable.init, (cap_closes_and_bounds Char.toUpper 3).2 ∅ Reachable.init⟩

/-- C6: for a tracked descriptor `fd` reported ready, the loop handles `fd`
without panic; if the read fails, or returns zero bytes, or the write fails,
then `fd` has been closed and is no key of the map any more, and every other
entry is as before; if the read returns `n > 0` bytes and the write succeeds,
the map is unchanged. -/
theorem ready_descriptor_removed_on_failure (upper : Char → Char) (readFDs : FdSet) (env : Env)
    (fd : Int) (clients : Clients) (calls : List SysCall) (_htracked : fd ∈ clients)
    (hready : fdIsSet fd readFDs = some true) :
    ∃ clients' calls', serveClients upper readFDs env [fd] (clients, calls) =
        Except.ok (clients', calls') ∧
      ((env.read fd = ReadResult.err ∨
          (∃ chunk, env.read fd = ReadResult.data chunk ∧ chunk.utf8ByteSize = 0) ∨
          env.writeErr fd = true) →
        SysCall.close fd ∈ calls' ∧ fd ∉ clients' ∧
          ∀ fd', fd' ≠ fd → clients'.lookup fd' = clients.lookup fd') ∧
      ((∃ chunk, env.read fd = ReadResult.data chunk ∧ chunk.utf8ByteSize > 0) ∧
          env.writeErr fd = false → clients' = clients) := by
  refine ⟨(serveReady upper fd clients (env.read fd) (env.writeErr fd)).1,
    calls ++ (serveReady upper fd clients (env.read fd) (env.writeErr fd)).2,
    by simp only [serveClients, hready], ?_, ?_⟩
  · intro hfail
    have herr : (handleSelectRead upper fd (env.read fd) (env.writeErr fd)).1 = true := by
      unfold handleSelectRead
      rcases hfail with h | ⟨chunk, h, h0⟩ | h
      · rw [h]
      · rw [h]; simp only [h0, if_true]
      · cases hrd : env.read fd with
        | err => rfl
        | data chunk =>
          by_cases h0 : chunk.utf8ByteSize = 0
          · simp only [h0, if_true]
          · simp only [h0, if_false, h]
    simp only [serveReady, herr, if_true, closeClient]
    refine ⟨by simp, ?_, ?_⟩
    · exact fun hmem => ((AList.mem_erase).1 hmem).1 rfl
    · intro fd' hne
      exact AList.lookup_erase_ne hne
  · rintro ⟨⟨chunk, hrd, hpos⟩, hw⟩
    have h0 : ¬ chunk.utf8ByteSize = 0 := by omega
    simp only [serveReady, handleSelectRead, hrd, h0, if_false, hw, Bool.false_eq_true]

theorem ready_descriptor_removed_on_failure_witness :
    (5 : Int) ∈ twoClients ∧ fdIsSet 5 ⟨fun _ => 32⟩ = some true ∧
    ∃ clients' calls',
      serveClients Char.toUpper ⟨fun _ => 32⟩
          ⟨SelectResult.eintr, AcceptResult.err, false, fun _ => ReadResult.data "", fun _ => false⟩
          [5] (twoClients, []) = Except.ok (clients', calls') ∧
        SysCall.close 5 ∈ calls' ∧ (5 : Int) ∉ clients' ∧
        clients'.lookup 70 = twoClients.lookup 70 :=
  ⟨by decide, by decide,
    match ready_descriptor_removed_on_failure Char.toUpper ⟨fun _ => 32⟩
      ⟨SelectResult.eintr, AcceptResult.err, false, fun _ => ReadResult.data "", fun _ => false⟩
      5 twoClients [] (by decide) (by decide) with
    | ⟨clients', calls', h1, h2, _⟩ =>
      ⟨clients', calls', h1, (h2 (Or.inr (Or.inl ⟨"", rfl, rfl⟩))).1,
        (h2 (Or.inr (Or.inl ⟨"", rfl, rfl⟩))).2.1,
        (h2 (Or.inr (Or.inl ⟨"", rfl, rfl⟩))).2.2 70 (by decide)⟩⟩

/-- Every descriptor from 1024 on is admitted while the map holds fewer than
1023 entries, and both bit-set functions panic on it. -/
theorem acceptNewClient_admits_any_descriptor (listenFD : Int) (clients : Clients) (connFD : Int)
    (sa : Sockaddr) (hlen : len clients < maxFDs - 1) (hfd : maxFDs ≤ connFD) :
    connFD ∈ (acceptNewClient listenFD clients (AcceptResult.conn connFD sa) false).1 ∧
    ∀ set, fdSet connFD set = none ∧ fdIsSet connFD set = none := by
  constructor
  · have hfull : ¬ len clients ≥ maxFDs - 1 := by omega
    simp only [acceptNewClient, hfull, if_false, Bool.false_eq_true]
    exact (AList.mem_insert clients).2 (Or.inl rfl)
  · intro set
    simp only [fdSet, fdIsSet, wordIndex_none_of_ge hfd, and_self]

/-- C10, the code at the failing input: with an empty map and listener 3,
`Accept` returning descriptor 1024 passes the only guard and 1024 is entered
in the map; `fdSet` and `fdIsSet` then index `Bits[16]`, past the 16 words,
and the iteration that admitted it already panics in its scan of the map. -/
theorem descriptor_1024_admitted_then_panic :
    (1024 : Int) ∈ (acceptNewClient 3 ∅ (AcceptResult.conn 1024 Sockaddr.other) false).1 ∧
    wordIndex 1024 = none ∧
    (fdSet 1024 FdSet.zero).isNone = true ∧ fdIsSet 1024 onlyThree = none ∧
    (loopIter Char.toUpper 3 ∅ acceptsBeyondRange).isCrashed = true := by
  refine ⟨by decide, by decide, by decide, by decide, by decide⟩

end Select

/-! ## Theorems: epoll-style multiplexer -/

namespace Epoll

theorem acceptEpollClients_no_removal (listenFD epollFD : Int) (accepts : List AcceptResult) :
    ∀ c ∈ acceptEpollClients listenFD epollFD accepts, c.isCtlDel = false := by
  induction accepts with
  | nil =>
    intro c hc
    simp only [acceptEpollClients, List.mem_singleton] at hc
    rw [hc]; rfl
  | cons a rest ih =>
    intro c hc
    cases a with
    | err =>
      simp only [acceptEpollClients, List.mem_singleton] at hc
      rw [hc]; rfl
    | conn connFD sa ctlAddErr =>
      cases ctlAddErr with
      | true =>
        simp only [acceptEpollClients, if_true, List.mem_cons] at hc
        rcases hc with h | h | h | h
        · rw [h]; rfl
        · rw [h]; rfl
        · rw [h]; rfl
        · exact ih c h
      | false =>
        simp only [acceptEpollClients, Bool.false_eq_true, if_false, List.mem_cons] at hc
        rcases hc with h | h | h
        · rw [h]; rfl
        · rw [h]; rfl
        · exact ih c h

theorem handleEpollRead_calls (upper : Char → Char) (fd : Int) (events : Nat)
    (rd : Select.ReadResult) (writeErr : Bool) :
    ∀ c ∈ (handleEpollRead upper fd events rd writeErr).2,
      c = SysCall.read fd ∨ ∃ data, c = SysCall.write fd data := by
  intro c hc
  unfold handleEpollRead at hc
  by_cases hin : events &&& EPOLLIN = 0
  · simp [hin] at hc
  · simp only [hin, if_false] at hc
    cases rd with
    | err =>
      simp only [List.mem_singleton] at hc
      exact Or.inl hc
    | data chunk =>
      by_cases h0 : chunk.utf8ByteSize = 0
      · simp only [h0, if_true, List.mem_singleton] at hc
        exact Or.inl hc
      · simp only [h0, if_false, List.mem_cons, List.mem_singleton, List.not_mem_nil,
          or_false] at hc
        rcases hc with h | h
        · exact Or.inl h
        · exact Or.inr ⟨_, h⟩

theorem handleEvent_no_removal (upper : Char → Char) (listenFD epollFD : Int) (ev : EpollEvent)
    (env : EventEnv) : ∀ c ∈ handleEvent upper listenFD epollFD ev env, c.isCtlDel = false := by
  intro c hc
  unfold handleEvent at hc
  by_cases hl : ev.Fd = listenFD
  · simp only [hl, if_true] at hc
    exact acceptEpollClients_no_removal _ _ _ c hc
  · simp only [hl, if_false] at hc
    by_cases hh : ev.Events &&& (EPOLLHUP ||| EPOLLERR) ≠ 0
    · rw [if_pos hh] at hc
      simp only [closeFD, List.mem_singleton] at hc
      rw [hc]; rfl
    · rw [if_neg hh] at hc
      have hread := handleEpollRead_calls upper ev.Fd ev.Events env.read env.writeErr
      have hc' : c ∈ (handleEpollRead upper ev.Fd ev.Events env.read env.writeErr).2 ∨
          c = SysCall.close ev.Fd := by
        split_ifs at hc
        · simpa [closeFD] using hc
        · exact Or.inl hc
      rcases hc' with h | h
      · rcases hread c h with h | ⟨d, h⟩ <;> (rw [h]; rfl)
      · rw [h]; rfl

theorem run_no_removal (upper : Char → Char) (listenFD epollFD : Int) (ws : List WaitResult) :
    ∀ c ∈ run upper listenFD epollFD ws, c.isCtlDel = false := by
  have hiter : ∀ w, ∀ c ∈ (loopIter upper listenFD epollFD w).1, c.isCtlDel = false := by
    intro w c hc
    cases w with
    | eintr =>
      simp only [loopIter, List.mem_singleton] at hc
      rw [hc]; rfl
    | failed =>
      simp only [loopIter, List.mem_singleton] at hc
      rw [hc]; rfl
    | events evs =>
      simp only [loopIter, List.mem_cons, List.mem_flatten, List.mem_map] at hc
      rcases hc with h | ⟨l, ⟨e, _, rfl⟩, hcl⟩
      · rw [h]; rfl
      · exact handleEvent_no_removal _ _ _ _ _ c hcl
  induction ws with
  | nil => intro c hc; simp [run] at hc
  | cons w rest ih =>
    intro c hc
    simp only [run] at hc
    split_ifs at hc
    · rcases List.mem_append.1 hc with h | h
      · exact hiter w c h
      · exact ih c h
    · exact hiter w c hc

/-- C7 as amended: the loop never issues `EPOLL_CTL_DEL`, whatever `EpollWait`
returns; and for an event on a connection descriptor that puts the connection
in CLOSING (a hang-up or error bit, a mask without `EPOLLIN`, a failed or
zero-length read, a failed write) the calls made for the event are reads and
writes on that descriptor followed by exactly one close of it, the last call. -/
theorem closing_closes_once_without_removal (upper : Char → Char) (listenFD epollFD : Int) :
    (∀ ws, ∀ c ∈ run upper listenFD epollFD ws, c.isCtlDel = false) ∧
    (∀ (ev : EpollEvent) (env : EventEnv), ev.Fd ≠ listenFD →
      (ev.Events &&& (EPOLLHUP ||| EPOLLERR) ≠ 0 ∨ ev.Events &&& EPOLLIN = 0 ∨
        env.read = Select.ReadResult.err ∨
        (∃ chunk, env.read = Select.ReadResult.data chunk ∧ chunk.utf8ByteSize = 0) ∨
        env.writeErr = true) →
      ∃ pre, handleEvent upper listenFD epollFD ev env = pre ++ [SysCall.close ev.Fd] ∧
        ∀ c ∈ pre, c = SysCall.read ev.Fd ∨ ∃ data, c = SysCall.write ev.Fd data) := by
  refine ⟨run_no_removal upper listenFD epollFD, ?_⟩
  intro ev env hl hclosing
  unfold handleEvent
  simp only [hl, if_false]
  by_cases hh : ev.Events &&& (EPOLLHUP ||| EPOLLERR) ≠ 0
  · rw [if_pos hh]
    exact ⟨[], rfl, by simp⟩
  · rw [if_neg hh]
    have herr : (handleEpollRead upper ev.Fd ev.Events env.read env.writeErr).1 = true := by
      unfold handleEpollRead
      by_cases hin : ev.Events &&& EPOLLIN = 0
      · simp only [hin, if_true]
      · simp only [hin, if_false]
        rcases hclosing with h | h | h | ⟨chunk, h, h0⟩ | h
        · exact absurd h hh
        · exact absurd h hin
        · rw [h]
        · rw [h]; simp only [h0, if_true]
        · cases hrd : env.read with
          | err => rfl
          | data chunk =>
            by_cases h0 : chunk.utf8ByteSize = 0
            · simp only [h0, if_true]
            · simp only [h0, if_false, h]
    simp only [herr, if_true, closeFD]
    exact ⟨_, rfl, handleEpollRead_calls upper ev.Fd ev.Events env.read env.writeErr⟩

theorem closing_closes_once_without_removal_witness :
    (⟨EPOLLIN, 7⟩ : EpollEvent).Fd ≠ 3 ∧
    (∃ pre, handleEvent Char.toUpper 3 4 ⟨EPOLLIN, 7⟩ ⟨[], Select.ReadResult.data "", false⟩ =
        pre ++ [SysCall.close 7] ∧
      ∀ c ∈ pre, c = SysCall.read 7 ∨ ∃ data, c = SysCall.write 7 data) ∧
    handleEvent Char.toUpper 3 4 ⟨EPOLLIN, 7⟩ ⟨[], Select.ReadResult.data "", false⟩ =
      [SysCall.read 7, SysCall.close 7] :=
  ⟨by decide,
    (closing_closes_once_without_removal Char.toUpper 3 4).2 ⟨EPOLLIN, 7⟩
      ⟨[], Select.ReadResult.data "", false⟩ (by decide)
      (Or.inr (Or.inr (Or.inr (Or.inl ⟨"", rfl, rfl⟩)))),
    by decide⟩

/-- C7, the claim refuted: in the run where descriptor 7 is accepted and
registered and then reported with `EPOLLHUP`, the calls made are the wait, the
accept, the registration, the accept that would block, the wait, and the close
of 7, with no removal of the registration before the close. -/
theorem close_without_registration_removal :
    run Char.toUpper 3 4 acceptThenHangUp =
      [SysCall.epollWait 4, SysCall.accept4 3, SysCall.epollCtlAdd 4 7 (EPOLLIN ||| EPOLLRDHUP),
        SysCall.accept4 3, SysCall.epollWait 4, SysCall.close 7] ∧
    removalBeforeClose [] (run Char.toUpper 3 4 acceptThenHangUp) = false := by
  constructor <;> decide

end Epoll

/-! ## Theorems: the multiplexer read handlers against the wire protocol -/

namespace WireSpec

theorem utf8ByteSize_go_pos (c : Char) (cs : List Char) : 0 < String.utf8ByteSize.go (c :: cs) := by
  have := c.utf8Size_pos
  simp only [String.utf8ByteSize.go]
  omega

theorem utf8ByteSize_ne_zero_of_trim (chunk : String) (h : TrimSpace chunk ≠ "") :
    ¬ chunk.utf8ByteSize = 0 := by
  intro h0
  apply h
  obtain ⟨cs⟩ := chunk
  cases cs with
  | nil => rfl
  | cons c cs =>
    have := utf8ByteSize_go_pos c cs
    have h1 : String.utf8ByteSize ⟨c :: cs⟩ = String.utf8ByteSize.go (c :: cs) := rfl
    omega

/-- Trimming a line together with its terminating newline is trimming the line. -/
theorem TrimSpace_line (L : String) : TrimSpace (L ++ "\n") = TrimSpace L := by
  unfold TrimSpace
  have : (L ++ "\n").data = L.data ++ ['\n'] := by
    rw [String.data_append]
  rw [this, trim_chars_concat '\n' (by decide)]

/-- C3 as amended: for a chunk returned by one read on `fd` whose trimmed
content is not empty, each read handler makes exactly one write, of the tag
`"[select fd] "` (resp. `"[epoll fd] "`), the upper-cased trimmed chunk and a
newline; so a chunk that is one newline-terminated line `L` is answered by the
tagged response line of `L`. -/
theorem one_tagged_write_per_chunk (upper : Char → Char) (fd : Int) (chunk : String)
    (h : TrimSpace chunk ≠ "") :
    Select.handleSelectRead upper fd (Select.ReadResult.data chunk) false =
      (false, [Select.SysCall.read fd,
        Select.SysCall.write fd
          ("[select " ++ toString fd ++ "] " ++ ToUpper upper (TrimSpace chunk) ++ "\n")]) ∧
    (∀ events, events &&& Epoll.EPOLLIN ≠ 0 →
      Epoll.handleEpollRead upper fd events (Select.ReadResult.data chunk) false =
        (false, [Epoll.SysCall.read fd,
          Epoll.SysCall.write fd
            ("[epoll " ++ toString fd ++ "] " ++ ToUpper upper (TrimSpace chunk) ++ "\n")])) ∧
    (∀ L, chunk = L ++ "\n" →
      Select.written (Select.handleSelectRead upper fd (Select.ReadResult.data chunk) false).2 =
        "[select " ++ toString fd ++ "] " ++ ToUpper upper (TrimSpace L) ++ "\n" ∧
      ∀ events, events &&& Epoll.EPOLLIN ≠ 0 →
        Epoll.written
            (Epoll.handleEpollRead upper fd events (Select.ReadResult.data chunk) false).2 =
          "[epoll " ++ toString fd ++ "] " ++ ToUpper upper (TrimSpace L) ++ "\n") := by
  have h0 := utf8ByteSize_ne_zero_of_trim chunk h
  have hs : Select.handleSelectRead upper fd (Select.ReadResult.data chunk) false =
      (false, [Select.SysCall.read fd,
        Select.SysCall.write fd
          ("[select " ++ toString fd ++ "] " ++ ToUpper upper (TrimSpace chunk) ++ "\n")]) := by
    simp only [Select.handleSelectRead, h0, if_false]
    rfl
  have he : ∀ events, events &&& Epoll.EPOLLIN ≠ 0 →
      Epoll.handleEpollRead upper fd events (Select.ReadResult.data chunk) false =
        (false, [Epoll.SysCall.read fd,
          Epoll.SysCall.write fd
            ("[epoll " ++ toString fd ++ "] " ++ ToUpper upper (TrimSpace chunk) ++ "\n")]) := by
    intro events hin
    simp only [Epoll.handleEpollRead, hin, h0, if_false]
    rfl
  refine ⟨hs, he, ?_⟩
  intro L hL
  have ht : TrimSpace chunk = TrimSpace L := by rw [hL, TrimSpace_line]
  constructor
  · rw [hs, ← ht]
    simp [Select.written]
  · intro events hin
    rw [he events hin, ← ht]
    simp [Epoll.written]

theorem one_tagged_write_per_chunk_witness :
    TrimSpace "  hi  \n" ≠ "" ∧
    Select.handleSelectRead Char.toUpper 5 (Select.ReadResult.data "  hi  \n") false =
      (false, [Select.SysCall.read 5, Select.SysCall.write 5 "[select 5] HI\n"]) :=
  ⟨by decide, (one_tagged_write_per_chunk Char.toUpper 5 "  hi  \n" (by decide)).1⟩

/-- C3, the claim refuted: for the chunk `"a\nb\n"` on descriptor 5 both
handlers write one response in which only the first line carries the tag,
where the wire protocol asks for two tagged lines. -/
theorem two_lines_get_one_tag :
    Select.written
        (Select.handleSelectRead Char.toUpper 5 (Select.ReadResult.data "a\nb\n") false).2 =
      "[select 5] A\nB\n" ∧
    expectedReply Char.toUpper "select 5" "a\nb\n" = "[select 5] A\n[select 5] B\n" ∧
    Epoll.written
        (Epoll.handleEpollRead Char.toUpper 5 Epoll.EPOLLIN (Select.ReadResult.data "a\nb\n")
          false).2 = "[epoll 5] A\nB\n" ∧
    expectedReply Char.toUpper "epoll 5" "a\nb\n" = "[epoll 5] A\n[epoll 5] B\n" ∧
    Select.written
        (Select.handleSelectRead Char.toUpper 5 (Select.ReadResult.data "a\nb\n") false).2 ≠
      expectedReply Char.toUpper "select 5" "a\nb\n" ∧
    Epoll.written
        (Epoll.handleEpollRead Char.toUpper 5 Epoll.EPOLLIN (Select.ReadResult.data "a\nb\n")
          false).2 ≠ expectedReply Char.toUpper "epoll 5" "a\nb\n" := by
  refine ⟨by decide, by decide, by decide, by decide, by decide, by decide⟩

/-- The blank chunk `"\n"` on descriptor 5 is answered by both handlers with
the bare tag line. -/
theorem blank_chunk_is_answered :
    (Select.handleSelectRead Char.toUpper 5 (Select.ReadResult.data "\n") false).2 =
      [Select.SysCall.read 5, Select.SysCall.write 5 "[select 5] \n"] ∧
    (Epoll.handleEpollRead Char.toUpper 5 Epoll.EPOLLIN (Select.ReadResult.data "\n") false).2 =
      [Epoll.SysCall.read 5, Epoll.SysCall.write 5 "[epoll 5] \n"] ∧
    expectedReply Char.toUpper "select 5" "\n" = "" := by
  refine ⟨by decide, by decide, by decide⟩

end WireSpec
